import Mathlib

/-!
Verification development for the OBJ-file viewer (`src/OBJ_viewer.cpp`).

The mesh-ingestion pipeline (the `loadOBJ` parser/flattener, the
`calculateSmoothNormals` synthesizer, the interaction-state updates of
`scroll_callback`, and the fit-to-view setup of `main`) is shallowly
embedded here.  Numeric values are modelled as exact rationals `ℚ`
(positions, texture coordinates, normals); the final normalization step
of the synthesizer, which divides by a Euclidean norm, is modelled over
`ℝ`.  Machine-level detail that the claims depend on is kept: the index
vectors are `std::vector<unsigned int>`, so the `int` produced by
`std::stoi` is reduced mod 2^32 when pushed (`toU32`); C++ stream
extraction of a number that fails stores `0` and poisons the stream
(`extractNums`), while `std::stoi` on an unparseable token throws, which
aborts the whole load (`Except.error`).
-/

namespace OBJ

/-- A 3-component vector with exact rational coordinates
(models `glm::vec3` values produced by parsing). -/
structure Vec3 where
  x : ℚ
  y : ℚ
  z : ℚ
deriving DecidableEq

/-- A 2-component vector (models `glm::vec2`). -/
structure Vec2 where
  x : ℚ
  y : ℚ
deriving DecidableEq

def vzero : Vec3 := ⟨0, 0, 0⟩

def uvzero : Vec2 := ⟨0, 0⟩

/-- Componentwise sum, modelling `operator+=` on `glm::vec3`. -/
def addQ (a b : Vec3) : Vec3 := ⟨a.x + b.x, a.y + b.y, a.z + b.z⟩

/-- Componentwise difference (`v1 - v0`). -/
def subQ (a b : Vec3) : Vec3 := ⟨a.x - b.x, a.y - b.y, a.z - b.z⟩

/-- Models `glm::cross(edge1, edge2)`. -/
def crossQ (a b : Vec3) : Vec3 :=
  ⟨a.y * b.z - a.z * b.y, a.z * b.x - a.x * b.z, a.x * b.y - a.y * b.x⟩

/-- Sum of a list of vectors, accumulated left to right from zero
(models the `avgNormal += ...` and `center += vertex` loops). -/
def sumVecQ (l : List Vec3) : Vec3 := l.foldl addQ vzero

/-!  ## Token-level model of the text input

A line of the OBJ file is modelled after `std::istringstream`
tokenization: the leading word selects the record type, the remaining
whitespace-separated tokens are carried in structured form.

For `v`/`vt`/`vn` records each remaining token is abstracted by whether
stream extraction of a number succeeds on it (`NumTok.num q`) or fails
(`NumTok.bad`).  For `f` records each corner token is abstracted by its
slash-separated fields as produced by `std::getline(viss, token, '/')`:
a field is an integer that `std::stoi` parses (`Field.fnum n`), a
non-empty string `std::stoi` rejects or overflows on (`Field.fbad`), or
an empty string (`Field.fempty`).  The empty corner string is `[]`. -/

/-- A token of a `v`/`vt`/`vn` record, abstracted by the outcome of
`operator>>` into a float. -/
inductive NumTok where
  | num (q : ℚ)
  | bad
deriving DecidableEq

/-- One slash-separated field of a face-corner token. -/
inductive Field where
  | fnum (n : Int)
  | fbad
  | fempty
deriving DecidableEq

/-- A face-corner token: its fields as split at `/` by repeated
`std::getline` (a trailing `/` produces no trailing empty field). -/
abbrev CornerTok := List Field

/-- One input line, already dispatched on its leading token as in the
`while (std::getline(file, line))` loop.  Lines whose leading token is
none of `v`, `vt`, `vn`, `f` are `other`. -/
inductive Line where
  | v (toks : List NumTok)
  | vt (toks : List NumTok)
  | vn (toks : List NumTok)
  | f (toks : List CornerTok)
  | other
deriving DecidableEq

/-- Extract `k` numbers from the token stream with C++11 stream
semantics: a failed extraction stores `0` and sets the fail bit, after
which every further extraction also yields `0`.  (In C++ a component
whose extraction is skipped because the stream already failed is left
unwritten; the claims never depend on those values and they are
modelled as `0`.) -/
def extractNums : List NumTok → Nat → List ℚ
  | _, 0 => []
  | [], k + 1 => 0 :: List.replicate k 0
  | .bad :: _, k + 1 => 0 :: List.replicate k 0
  | .num q :: rest, k + 1 => q :: extractNums rest k

/-- Models `iss >> vertex.x >> vertex.y >> vertex.z` for a `v`/`vn` record. -/
def extract3 (toks : List NumTok) : Vec3 :=
  match extractNums toks 3 with
  | [a, b, c] => ⟨a, b, c⟩
  | _ => vzero

/-- Models `iss >> uv.x >> uv.y` for a `vt` record. -/
def extract2 (toks : List NumTok) : Vec2 :=
  match extractNums toks 2 with
  | [a, b] => ⟨a, b⟩
  | _ => uvzero

/-- The conversion of the `int` returned by `std::stoi` to the
`unsigned int` stored in `vertexIndices`/`uvIndices`/`normalIndices`
(reduction mod 2^32). -/
def toU32 (n : Int) : Nat := (n % (2 ^ 32 : Int)).toNat

/-- Reading an optional `/`-separated field (texture or normal index):
`none` when `getline` failed (field absent) or the field is empty
(skipped), an error when `std::stoi` throws on a non-empty unparseable
token, and the parsed index otherwise. -/
def parseOptField : Option Field → Except Unit (Option Int)
  | none => .ok none
  | some .fempty => .ok none
  | some .fbad => .error ()
  | some (.fnum n) => .ok (some n)

/-- Parse one corner token into
(position index, optional texture index, optional normal index),
mirroring the three `getline`/`stoi` reads.  The first field must be a
parseable integer (`std::stoi` throws on an empty or bad token, which
is fatal). -/
def parseCorner (c : CornerTok) : Except Unit (Int × Option Int × Option Int) :=
  match c.head? with
  | none => .error ()
  | some .fempty => .error ()
  | some .fbad => .error ()
  | some (.fnum v) =>
    match parseOptField (c.get? 1) with
    | .error e => .error e
    | .ok u =>
      match parseOptField (c.get? 2) with
      | .error e => .error e
      | .ok n => .ok (v, u, n)

/-- The corner-token sequence actually processed for one `f` record:
`[v1, v2, v3]`, extended by `[v1, v3, v4]` when a fourth token is
present (`isQuad`).  Missing tokens are the empty string `[]`, exactly
as a failed `iss >> vertexK` leaves the string empty; tokens beyond the
fourth are never read. -/
def faceVertices (toks : List CornerTok) : List CornerTok :=
  let v1 := toks.getD 0 []
  let v2 := toks.getD 1 []
  let v3 := toks.getD 2 []
  let v4 := toks.getD 3 []
  if v4 ≠ [] then [v1, v2, v3, v1, v3, v4] else [v1, v2, v3]

/-- The parser state built up by `loadOBJ` before flattening. -/
structure RawData where
  temp_vertices : List Vec3
  temp_uvs : List Vec2
  temp_normals : List Vec3
  vertexIndices : List Nat
  uvIndices : List Nat
  normalIndices : List Nat
deriving DecidableEq

def emptyRaw : RawData := ⟨[], [], [], [], [], []⟩

/-- Process the corner tokens of one face record in order, pushing to
the three global index streams; a thrown `std::stoi` exception aborts
everything. -/
def processCorners (r : RawData) : List CornerTok → Except Unit RawData
  | [] => .ok r
  | c :: cs =>
    match parseCorner c with
    | .error e => .error e
    | .ok (v, u, n) =>
      processCorners
        { r with
          vertexIndices := r.vertexIndices ++ [toU32 v]
          uvIndices := r.uvIndices ++ (u.map toU32).toList
          normalIndices := r.normalIndices ++ (n.map toU32).toList } cs

/-- Process one input line of `loadOBJ`'s read loop. -/
def processLine (r : RawData) : Line → Except Unit RawData
  | .v toks => .ok { r with temp_vertices := r.temp_vertices ++ [extract3 toks] }
  | .vt toks => .ok { r with temp_uvs := r.temp_uvs ++ [extract2 toks] }
  | .vn toks => .ok { r with temp_normals := r.temp_normals ++ [extract3 toks] }
  | .f toks => processCorners r (faceVertices toks)
  | .other => .ok r

/-- The whole read loop, threading the parser state. -/
def parseFrom (r : RawData) : List Line → Except Unit RawData
  | [] => .ok r
  | l :: ls =>
    match processLine r l with
    | .error e => .error e
    | .ok r' => parseFrom r' ls

def parseLines (ls : List Line) : Except Unit RawData := parseFrom emptyRaw ls

/-- The parser state of a successfully loaded file (projection helper
for concrete inputs). -/
def parsedRaw (ls : List Line) : RawData :=
  match parseLines ls with
  | .ok r => r
  | .error _ => emptyRaw

/-!  ## The flattener

The loop `for (size_t i = 0; i < vertexIndices.size(); i++)` of
`loadOBJ`: a corner contributes a resolved position only when its
(unsigned) position index is `> 0` and `<= temp_vertices.size()`;
texture coordinates and normals are looked up at the same loop index
`i` in the *global* `uvIndices`/`normalIndices` streams. -/

/-- The three flat output arrays (`out_vertices`, `out_uvs`,
`out_normals`). -/
structure FlatOut where
  out_vertices : List Vec3
  out_uvs : List Vec2
  out_normals : List Vec3
deriving DecidableEq

/-- The test `vertexIndices[i] > 0 && vertexIndices[i] <= temp_vertices.size()`. -/
abbrev posValid (r : RawData) (i : Nat) : Prop :=
  0 < r.vertexIndices.getD i 0 ∧ r.vertexIndices.getD i 0 ≤ r.temp_vertices.length

/-- The test `!uvIndices.empty() && i < uvIndices.size() && uvIndices[i] > 0 &&
uvIndices[i] <= temp_uvs.size()`. -/
abbrev uvValid (r : RawData) (i : Nat) : Prop :=
  r.uvIndices ≠ [] ∧ i < r.uvIndices.length ∧
    0 < r.uvIndices.getD i 0 ∧ r.uvIndices.getD i 0 ≤ r.temp_uvs.length

/-- The test `!normalIndices.empty() && i < normalIndices.size() &&
normalIndices[i] > 0 && normalIndices[i] <= temp_normals.size()`. -/
abbrev normalValid (r : RawData) (i : Nat) : Prop :=
  r.normalIndices ≠ [] ∧ i < r.normalIndices.length ∧
    0 < r.normalIndices.getD i 0 ∧ r.normalIndices.getD i 0 ≤ r.temp_normals.length

/-- What loop iteration `i` pushes to `out_vertices` (nothing when the
position index is out of range). -/
def emitPos (r : RawData) (i : Nat) : Option Vec3 :=
  if posValid r i then some (r.temp_vertices.getD (r.vertexIndices.getD i 0 - 1) vzero)
  else none

/-- What loop iteration `i` pushes to `out_uvs`: the resolved
coordinate, or the `(0,0)` default when `temp_uvs` is non-empty,
and nothing at all otherwise or when the corner itself is dropped. -/
def emitUV (r : RawData) (i : Nat) : Option Vec2 :=
  if posValid r i then
    if uvValid r i then some (r.temp_uvs.getD (r.uvIndices.getD i 0 - 1) uvzero)
    else if r.temp_uvs ≠ [] then some uvzero
    else none
  else none

/-- What loop iteration `i` pushes to `out_normals`. -/
def emitNormal (r : RawData) (i : Nat) : Option Vec3 :=
  if posValid r i then
    if normalValid r i then some (r.temp_normals.getD (r.normalIndices.getD i 0 - 1) vzero)
    else none
  else none

/-- The body of the flattening loop at index `i`, pushing to the three
output arrays. -/
def flattenStep (r : RawData) (acc : FlatOut) (i : Nat) : FlatOut :=
  if posValid r i then
    let acc1 : FlatOut :=
      { acc with out_vertices :=
          acc.out_vertices ++ [r.temp_vertices.getD (r.vertexIndices.getD i 0 - 1) vzero] }
    let acc2 : FlatOut :=
      if uvValid r i then
        { acc1 with out_uvs := acc1.out_uvs ++ [r.temp_uvs.getD (r.uvIndices.getD i 0 - 1) uvzero] }
      else if r.temp_uvs ≠ [] then
        { acc1 with out_uvs := acc1.out_uvs ++ [uvzero] }
      else acc1
    if normalValid r i then
      { acc2 with out_normals :=
          acc2.out_normals ++ [r.temp_normals.getD (r.normalIndices.getD i 0 - 1) vzero] }
    else acc2
  else acc

/-- The flattening loop over all corner indices. -/
def flatten (r : RawData) : FlatOut :=
  (List.range r.vertexIndices.length).foldl (flattenStep r) ⟨[], [], []⟩

/-- Models `loadOBJ` on an already-opened file: parse all lines, then flatten.
On success the function returns `true` with the three output arrays;
an uncaught `std::stoi` exception is the error case. -/
def loadOBJ (ls : List Line) : Except Unit FlatOut :=
  match parseLines ls with
  | .error e => .error e
  | .ok r => .ok (flatten r)

/-!  ## The normal synthesizer (`calculateSmoothNormals`)

Phase one accumulates the per-triangle face normal
`cross(v1 - v0, v2 - v0)` into the three slots of every complete group
of 3 consecutive flat vertices.  Phase two groups the indices of
bit-identical positions with a `std::map<VertexKey, vector<size_t>>`
and overwrites every member of a group with the normalized sum of the
group's accumulators.  The normalization (`glm::normalize`) divides by
a Euclidean length, so its result lives in `ℝ`-valued vectors. -/

/-- The body of one complete iteration of the face-normal loop: read
`v0, v1, v2`, form `faceNormal = cross(v1 - v0, v2 - v0)` and add it
into the three accumulator slots `i`, `i + 1`, `i + 2` in order. -/
def accumGroup (vertices normals : List Vec3) (i : Nat) : List Vec3 :=
  let v0 := vertices.getD i vzero
  let v1 := vertices.getD (i + 1) vzero
  let v2 := vertices.getD (i + 2) vzero
  let faceNormal := crossQ (subQ v1 v0) (subQ v2 v0)
  let normals := normals.set i (addQ (normals.getD i vzero) faceNormal)
  let normals := normals.set (i + 1) (addQ (normals.getD (i + 1) vzero) faceNormal)
  normals.set (i + 2) (addQ (normals.getD (i + 2) vzero) faceNormal)

/-- The face-normal accumulation loop
`for (size_t i = 0; i < vertices.size(); i += 3)`, started at index
`i`; the body runs only when the group of 3 is complete
(`i + 2 < vertices.size()`). -/
def accumFrom (vertices : List Vec3) (normals : List Vec3) (i : Nat) : List Vec3 :=
  if _h : i < vertices.length then
    accumFrom vertices
      (if i + 2 < vertices.length then accumGroup vertices normals i else normals) (i + 3)
  else normals
termination_by vertices.length - i

/-- Models `VertexKey::operator<`: lexicographic comparison that tests each
coordinate for inequality first. -/
def keyLt (a b : Vec3) : Prop :=
  if a.x ≠ b.x then a.x < b.x
  else if a.y ≠ b.y then a.y < b.y
  else a.z < b.z

instance (a b : Vec3) : Decidable (keyLt a b) := by
  unfold keyLt; infer_instance

/-- Models `vertexMap[key].push_back(i)` on the sorted association list that
models the `std::map`: insert before the first strictly greater key,
append to the group of an equivalent key. -/
def insertIdx (m : List (Vec3 × List Nat)) (v : Vec3) (i : Nat) : List (Vec3 × List Nat) :=
  match m with
  | [] => [(v, [i])]
  | (k, g) :: rest =>
    if keyLt v k then (v, [i]) :: (k, g) :: rest
    else if keyLt k v then (k, g) :: insertIdx rest v i
    else (k, g ++ [i]) :: rest

/-- The map-building loop `for (size_t i = 0; i < vertices.size(); i++)
vertexMap[{vertices[i]}].push_back(i)`. -/
def buildMapFrom (vertices : List Vec3) (i : Nat) (m : List (Vec3 × List Nat)) :
    List (Vec3 × List Nat) :=
  if _h : i < vertices.length then
    buildMapFrom vertices (i + 1) (insertIdx m (vertices.getD i vzero) i)
  else m
termination_by vertices.length - i

def buildMap (vertices : List Vec3) : List (Vec3 × List Nat) :=
  buildMapFrom vertices 0 []

/-- An `ℝ`-valued 3-vector, the value space of the normalized
normals. -/
structure VecR where
  x : ℝ
  y : ℝ
  z : ℝ

def rzero : VecR := ⟨0, 0, 0⟩

def addR (a b : VecR) : VecR := ⟨a.x + b.x, a.y + b.y, a.z + b.z⟩

def smulR (c : ℝ) (a : VecR) : VecR := ⟨c * a.x, c * a.y, c * a.z⟩

def dotR (a b : VecR) : ℝ := a.x * b.x + a.y * b.y + a.z * b.z

/-- Euclidean length. -/
noncomputable def normR (a : VecR) : ℝ := Real.sqrt (dotR a a)

/-- Models `glm::normalize`: `v * inversesqrt(dot(v, v))`. -/
noncomputable def normalizeR (v : VecR) : VecR := smulR (1 / normR v) v

/-- The exact embedding of the rational accumulators into `ℝ`. -/
def toR (v : Vec3) : VecR := ⟨(v.x : ℝ), (v.y : ℝ), (v.z : ℝ)⟩

/-- Models `avgNormal += normals[idx]` over a group, starting from zero. -/
def sumVecR (l : List VecR) : VecR := l.foldl addR rzero

/-- Processing of one `vertexMap` entry in the averaging loop: groups
of more than one member get the normalized sum of their accumulators
written to every member, a singleton is normalized in place. -/
noncomputable def assignGroup (ns : List VecR) (g : List Nat) : List VecR :=
  if 1 < g.length then
    let avg := normalizeR (sumVecR (g.map (fun idx => ns.getD idx rzero)))
    g.foldl (fun ns2 idx => ns2.set idx avg) ns
  else
    match g with
    | [idx] => ns.set idx (normalizeR (ns.getD idx rzero))
    | _ => ns

/-- The averaging loop `for (const auto& entry : vertexMap)`. -/
noncomputable def smoothPass (m : List (Vec3 × List Nat)) (ns : List VecR) : List VecR :=
  m.foldl (fun ns e => assignGroup ns e.2) ns

/-- Models `calculateSmoothNormals(vertices, normals)`: build the position
map, accumulate face normals onto `normals`, then average and
normalize per position group. -/
noncomputable def calculateSmoothNormals (vertices normals : List Vec3) : List VecR :=
  smoothPass (buildMap vertices) ((accumFrom vertices normals 0).map toR)

/-- The synthesizer invocation of `main`: when the flattener produced
no normals or a mismatched count, clear them, resize to zero vectors
and synthesize; otherwise keep the file's normals. -/
noncomputable def synthStage (vertices normals : List Vec3) : List VecR :=
  if normals = [] ∨ normals.length ≠ vertices.length then
    calculateSmoothNormals vertices (List.replicate vertices.length vzero)
  else normals.map toR

/-- The normals `main` renders with for a given flat vertex buffer that
came with no usable file normals. -/
noncomputable def mainNormals (vertices : List Vec3) : List VecR :=
  calculateSmoothNormals vertices (List.replicate vertices.length vzero)

/-- The indices holding a given position, in increasing order (what the
`vertexMap` entry of key `k` contains once built). -/
def grp (vertices : List Vec3) (k : Vec3) : List Nat :=
  (List.range vertices.length).filter (fun t => vertices.getD t vzero = k)

/-- The accumulated face-normal sum of the position group of vertex
`j` — the vector the synthesizer normalizes and assigns to `j`. -/
def groupSumQ (vertices : List Vec3) (j : Nat) : Vec3 :=
  sumVecQ ((grp vertices (vertices.getD j vzero)).map
    (fun t => (accumFrom vertices (List.replicate vertices.length vzero) 0).getD t vzero))

/-!  ## Interaction state and fit-to-view setup -/

/-- Models `scroll_callback`: `cameraPos.z -= yoffset * 0.2f`, then clamp to
`[0.5, 10.0]`.  (`0.2f` is modelled by the exact rational `1/5`.) -/
def scroll_callback (z yoffset : ℚ) : ℚ :=
  let z1 := z - yoffset * (1 / 5)
  let z2 := if z1 < 1 / 2 then 1 / 2 else z1
  if z2 > 10 then 10 else z2

/-- A whole sequence of scroll events applied in order. -/
def scrollFold (z : ℚ) (ys : List ℚ) : ℚ := ys.foldl scroll_callback z

/-- Componentwise `center /= vertices.size()`. -/
def divVQ (v : Vec3) (q : ℚ) : Vec3 := ⟨v.x / q, v.y / q, v.z / q⟩

/-- The divisor used by `main`'s centering step — `vertices.size()`,
with no emptiness guard. -/
def centerDivisor (out : FlatOut) : ℚ := (out.out_vertices.length : ℚ)

/-- Model of `main`'s centering: sum all vertices, then divide by the
vertex count (division by zero for an empty buffer). -/
def centerOf (out : FlatOut) : Vec3 :=
  divVQ (sumVecQ out.out_vertices) (centerDivisor out)

/-!  ## Derived notions used in the statements -/

/-- The face normal of the triangle starting at flat index `s`:
`cross(v1 - v0, v2 - v0)`. -/
def faceNormalAt (vertices : List Vec3) (s : Nat) : Vec3 :=
  crossQ (subQ (vertices.getD (s + 1) vzero) (vertices.getD s vzero))
    (subQ (vertices.getD (s + 2) vzero) (vertices.getD s vzero))

/-- The indices holding position `k` among the first `i` flat
vertices. -/
def grpUpTo (vertices : List Vec3) (i : Nat) (k : Vec3) : List Nat :=
  (List.range i).filter (fun t => vertices.getD t vzero = k)

/-- Association-list lookup by key equality (the group stored under a
given position in the model of `vertexMap`). -/
def lookupG : List (Vec3 × List Nat) → Vec3 → List Nat
  | [], _ => []
  | (k, g) :: rest, v => if v = k then g else lookupG rest v

/-- The first group of the map containing a given index. -/
def findG : List (Vec3 × List Nat) → Nat → Option (List Nat)
  | [], _ => none
  | (_, g) :: rest, j => if j ∈ g then some g else findG rest j

/-- Sortedness of the association list modelling `std::map`
iteration order. -/
def SortedM (m : List (Vec3 × List Nat)) : Prop :=
  m.Pairwise (fun a b => keyLt a.1 b.1)

/-- Whether a load attempt succeeded (`loadOBJ` returning `true`
rather than dying on an uncaught exception). -/
def isOkE {α : Type} : Except Unit α → Bool
  | .ok _ => true
  | .error _ => false

/-- All corner tokens processed by the face-record branch, in file
order, after quad expansion — the corner sequence the flattening loop
index `i` ranges over. -/
def expandedCorners (ls : List Line) : List CornerTok :=
  match ls with
  | [] => []
  | .f toks :: rest => faceVertices toks ++ expandedCorners rest
  | _ :: rest => expandedCorners rest

/-- The normal index that corner number `k` of the expanded corner
sequence itself declares (`none` when that corner has no normal field
or does not parse).  This is the per-corner notion the specification's
normal-resolution rule is phrased in. -/
def cornerNormalIndex (ls : List Line) (k : Nat) : Option Int :=
  match (expandedCorners ls).get? k with
  | none => none
  | some c =>
    match parseCorner c with
    | .error _ => none
    | .ok (_, _, n) => n

/-!  ## Concrete example inputs (used by witnesses and
counterexamples) -/

/-- One position, one `vn` normal, and a face whose first and third
corners declare no normal index while the second does
(`f 1 1//1 1`). -/
def mixedNormalLines : List Line :=
  [Line.v [.num 0, .num 0, .num 0], Line.vn [.num 1, .num 2, .num 3],
   Line.f [[.fnum 1], [.fnum 1, .fempty, .fnum 1], [.fnum 1]]]

/-- One position, no `vt` record, and a face whose corners all declare
UV index 1 (`f 1/1 1/1 1/1`). -/
def uvNoDataLines : List Line :=
  [Line.v [.num 0, .num 0, .num 0],
   Line.f [[.fnum 1, .fnum 1], [.fnum 1, .fnum 1], [.fnum 1, .fnum 1]]]

/-- A `v` record whose three numeric fields all fail to parse. -/
def badVLines : List Line := [Line.v [.bad, .bad, .bad]]

/-- A face record whose first corner token does not parse
(fatal `std::stoi`). -/
def badCornerLines : List Line :=
  [Line.v [.num 0, .num 0, .num 0], Line.f [[.fbad], [.fnum 1], [.fnum 1]]]

/-- A plain triangle mesh: three positions and one `f 1 2 3` face. -/
def triLines : List Line :=
  [Line.v [.num 0, .num 0, .num 0], Line.v [.num 1, .num 0, .num 0],
   Line.v [.num 0, .num 1, .num 0], Line.f [[.fnum 1], [.fnum 2], [.fnum 3]]]

/-- A mesh with one `vt` record and a face using it. -/
def uvDataLines : List Line :=
  [Line.v [.num 0, .num 0, .num 0], Line.vt [.num 0, .num 1],
   Line.f [[.fnum 1, .fnum 1], [.fnum 1], [.fnum 1, .fnum 7]]]

/-- One position and a face with one valid, one zero and one
out-of-range position index (`f 1 0 2`). -/
def skipLines : List Line :=
  [Line.v [.num 2, .num 3, .num 4], Line.f [[.fnum 1], [.fnum 0], [.fnum 2]]]

/-- The flat vertex buffer of a quad `f 1 2 3 4` over four corner
positions of the unit square — vertices 0 and 3 coincide. -/
def quadVerts : List Vec3 :=
  [⟨0, 0, 0⟩, ⟨1, 0, 0⟩, ⟨1, 1, 0⟩, ⟨0, 0, 0⟩, ⟨1, 1, 0⟩, ⟨0, 1, 0⟩]

/-!  ## Generic list lemmas -/

theorem getD_set_self {α : Type} (l : List α) (i : Nat) (a d : α) (h : i < l.length) :
    (l.set i a).getD i d = a := by
  induction l generalizing i with
  | nil => simp at h
  | cons b t ih =>
    cases i with
    | zero => rfl
    | succ i => simpa using ih i (by simpa using h)

theorem getD_set_ne {α : Type} (l : List α) (i j : Nat) (a d : α) (h : i ≠ j) :
    (l.set i a).getD j d = l.getD j d := by
  induction l generalizing i j with
  | nil => rfl
  | cons b t ih =>
    cases i with
    | zero =>
      cases j with
      | zero => exact absurd rfl h
      | succ j => rfl
    | succ i =>
      cases j with
      | zero => rfl
      | succ j => simpa using ih i j (by omega)

theorem getD_map_lt {α β : Type} (l : List α) (f : α → β) (i : Nat) (d : β) (d' : α)
    (h : i < l.length) : (l.map f).getD i d = f (l.getD i d') := by
  induction l generalizing i with
  | nil => simp at h
  | cons b t ih =>
    cases i with
    | zero => rfl
    | succ i => simpa using ih i (by simpa using h)

theorem getD_replicate {α : Type} (n i : Nat) (a d : α) (h : i < n) :
    (List.replicate n a).getD i d = a := by
  induction n generalizing i with
  | zero => omega
  | succ n ih =>
    cases i with
    | zero => rfl
    | succ i => simpa [List.replicate_succ] using ih i (by omega)

theorem filterMap_cons_toList {α β : Type} (f : α → Option β) (a : α) (l : List α) :
    List.filterMap f (a :: l) = (f a).toList ++ List.filterMap f l := by
  cases h : f a <;> simp [List.filterMap_cons, h]

theorem length_filterMap_congr {α β γ : Type} (f : α → Option β) (g : α → Option γ) :
    ∀ l : List α, (∀ a ∈ l, (f a).isSome = (g a).isSome) →
      (l.filterMap f).length = (l.filterMap g).length := by
  intro l
  induction l with
  | nil => intro _; rfl
  | cons a t ih =>
    intro h
    have ha := h a (by simp)
    have ht := ih fun b hb => h b (by simp [hb])
    cases hfa : f a <;> cases hga : g a <;>
      simp_all [List.filterMap_cons]

/-!  ## Characterization of the flattening loop -/

theorem flattenStep_eq (r : RawData) (acc : FlatOut) (i : Nat) :
    flattenStep r acc i =
      ⟨acc.out_vertices ++ (emitPos r i).toList,
       acc.out_uvs ++ (emitUV r i).toList,
       acc.out_normals ++ (emitNormal r i).toList⟩ := by
  obtain ⟨av, au, an⟩ := acc
  unfold flattenStep emitPos emitUV emitNormal
  split_ifs <;> simp

theorem flatten_fold (r : RawData) :
    ∀ (l : List Nat) (acc : FlatOut),
      l.foldl (flattenStep r) acc =
        ⟨acc.out_vertices ++ l.filterMap (emitPos r),
         acc.out_uvs ++ l.filterMap (emitUV r),
         acc.out_normals ++ l.filterMap (emitNormal r)⟩ := by
  intro l
  induction l with
  | nil => intro acc; obtain ⟨av, au, an⟩ := acc; simp
  | cons i t ih =>
    intro acc
    simp only [List.foldl_cons, ih, flattenStep_eq,
      filterMap_cons_toList, List.append_assoc]

/-- The flat output arrays are exactly the concatenation, over loop
indices `i` in order, of what each corner emits on its own. -/
theorem flatten_eq (r : RawData) :
    flatten r =
      ⟨(List.range r.vertexIndices.length).filterMap (emitPos r),
       (List.range r.vertexIndices.length).filterMap (emitUV r),
       (List.range r.vertexIndices.length).filterMap (emitNormal r)⟩ := by
  unfold flatten
  rw [flatten_fold]
  simp

theorem length_filterMap_if {α β : Type} (p : α → Prop) [DecidablePred p] (g : α → β) :
    ∀ l : List α,
      (l.filterMap (fun a => if p a then some (g a) else none)).length
        = (l.filter (fun a => decide (p a))).length := by
  intro l
  induction l with
  | nil => rfl
  | cons a t ih =>
    by_cases h : p a <;> simp [List.filterMap_cons, List.filter_cons, h, ih]

/-!  ## C1: quad decomposition -/

/-- C1: a face record with exactly 4 corner tokens is processed as the
two triangles `(corner0, corner1, corner2)` and
`(corner0, corner2, corner3)`, reusing the very corner strings of the
record, and the face branch of the parser resolves exactly that
six-corner sequence in order. -/
theorem C1_quad_two_triangles (c0 c1 c2 c3 : CornerTok) (h : c3 ≠ []) :
    faceVertices [c0, c1, c2, c3] = [c0, c1, c2, c0, c2, c3] ∧
    ∀ r : RawData, processLine r (Line.f [c0, c1, c2, c3])
      = processCorners r [c0, c1, c2, c0, c2, c3] := by
  have hfv : faceVertices [c0, c1, c2, c3] = [c0, c1, c2, c0, c2, c3] := by
    simp only [faceVertices, List.getD_cons_zero, List.getD_cons_succ]
    rw [if_pos h]
  refine ⟨hfv, fun r => ?_⟩
  rw [show processLine r (Line.f [c0, c1, c2, c3])
      = processCorners r (faceVertices [c0, c1, c2, c3]) from rfl, hfv]

theorem C1_quad_two_triangles_witness :
    ([Field.fnum 4] : CornerTok) ≠ [] ∧
    faceVertices [[Field.fnum 1], [Field.fnum 2], [Field.fnum 3], [Field.fnum 4]]
      = [[Field.fnum 1], [Field.fnum 2], [Field.fnum 3],
         [Field.fnum 1], [Field.fnum 3], [Field.fnum 4]] :=
  ⟨by decide,
   (C1_quad_two_triangles [Field.fnum 1] [Field.fnum 2] [Field.fnum 3] [Field.fnum 4]
     (by decide)).1⟩

/-!  ## C4: out-of-range position indices are skipped -/

/-- C4: the flat vertex output is exactly the in-order emission of the
corners whose stored position index is in range; a corner whose index
fails `> 0 && <= temp_vertices.size()` emits nothing (no default), so
the output is shorter by exactly one vertex per such corner and the
other corners' output is untouched; and a declared (signed) index that
is `≤ 0` or greater than the position count always fails that test. -/
theorem C4_out_of_range_position_skipped (r : RawData) :
    (flatten r).out_vertices = (List.range r.vertexIndices.length).filterMap (emitPos r) ∧
    (∀ i, ¬ posValid r i → emitPos r i = none) ∧
    (flatten r).out_vertices.length
      = ((List.range r.vertexIndices.length).filter (fun i => decide (posValid r i))).length ∧
    (∀ n : Int, -(2 ^ 31) < n → n < 2 ^ 31 → r.temp_vertices.length ≤ 2 ^ 31 →
      (n ≤ 0 ∨ (r.temp_vertices.length : Int) < n) →
      ¬ (0 < toU32 n ∧ toU32 n ≤ r.temp_vertices.length)) := by
  refine ⟨by rw [flatten_eq], ?_, ?_, ?_⟩
  · intro i h
    unfold emitPos
    rw [if_neg h]
  · rw [flatten_eq]
    exact length_filterMap_if (posValid r)
      (fun i => r.temp_vertices.getD (r.vertexIndices.getD i 0 - 1) vzero) _
  · intro n h1 h2 h3 h4
    unfold toU32
    omega

theorem C4_out_of_range_position_skipped_witness :
    (¬ posValid (parsedRaw skipLines) 1 →
        emitPos (parsedRaw skipLines) 1 = none) ∧
    (flatten (parsedRaw skipLines)).out_vertices.length
      = ((List.range (parsedRaw skipLines).vertexIndices.length).filter
          (fun i => decide (posValid (parsedRaw skipLines) i))).length ∧
    ¬ (0 < toU32 (-1) ∧ toU32 (-1) ≤ (parsedRaw skipLines).temp_vertices.length) :=
  ⟨(C4_out_of_range_position_skipped (parsedRaw skipLines)).2.1 1,
   (C4_out_of_range_position_skipped (parsedRaw skipLines)).2.2.1,
   (C4_out_of_range_position_skipped (parsedRaw skipLines)).2.2.2 (-1)
     (by decide) (by decide) (by decide) (by decide)⟩

/-!  ## C5: normal attachment is positional, not per-corner -/

/-- C5 counterexample: in `mixedNormalLines` the face's first corner
declares no normal index at all, yet the flattener attaches a normal
while processing it (it reads entry 0 of the global stream, which came
from the *second* corner); conversely the second corner declares the
in-range index 1 but gets no normal attached at its own loop
iteration. -/
theorem C5_per_corner_normal_counterexample :
    (emitNormal (parsedRaw mixedNormalLines) 0).isSome = true ∧
    cornerNormalIndex mixedNormalLines 0 = none ∧
    cornerNormalIndex mixedNormalLines 1 = some 1 ∧
    (parsedRaw mixedNormalLines).temp_normals.length = 1 ∧
    emitNormal (parsedRaw mixedNormalLines) 1 = none := by
  decide

/-- C5 amended: a normal is attached to the output vertex of loop
index `i` exactly when the `i`-th entry of the global normal-index
stream exists (the stream is non-empty and `i` is below its length)
and is in range of the parsed normal data; the corner's own declared
normal index plays no direct role. -/
theorem C5_positional_normal_attachment (r : RawData) :
    (flatten r).out_normals =
      (List.range r.vertexIndices.length).filterMap (fun i =>
        if posValid r i ∧ normalValid r i
        then some (r.temp_normals.getD (r.normalIndices.getD i 0 - 1) vzero)
        else none) := by
  rw [flatten_eq]
  have he : emitNormal r = fun i =>
      if posValid r i ∧ normalValid r i
      then some (r.temp_normals.getD (r.normalIndices.getD i 0 - 1) vzero)
      else none := by
    funext i
    unfold emitNormal
    by_cases h1 : posValid r i
    · by_cases h2 : normalValid r i
      · rw [if_pos h1, if_pos h2, if_pos ⟨h1, h2⟩]
      · rw [if_pos h1, if_neg h2, if_neg (fun hc => h2 hc.2)]
    · rw [if_neg h1, if_neg (fun hc => h1 hc.1)]
  rw [he]

/-!  ## C6: UV emission is keyed on the `vt` data, not the UV
index stream -/

/-- C6 counterexample: `uvNoDataLines` has a non-empty global UV index
stream (three corners declare UV index 1) but no `vt` record, so the
flattener emits 3 vertices and not a single UV — the claim predicts a
UV for every output vertex. -/
theorem C6_uv_stream_counterexample :
    (parsedRaw uvNoDataLines).uvIndices ≠ [] ∧
    (flatten (parsedRaw uvNoDataLines)).out_vertices.length = 3 ∧
    (flatten (parsedRaw uvNoDataLines)).out_uvs = [] := by
  decide

/-- C6 amended: per loop index the UV pushed is the coordinate resolved
through the `i`-th entry of the global UV-index stream when that entry
exists and is in range, and the `(0,0)` default otherwise — but only
when the parsed `vt` data array is non-empty; when it is empty no UV is
ever emitted, and when it is non-empty every emitted vertex gets a
UV. -/
theorem out_uvs_nil (r : RawData) (h : r.temp_uvs = []) :
    (flatten r).out_uvs = [] := by
  rw [flatten_eq]
  simp only [List.filterMap_eq_nil_iff]
  intro i _
  unfold emitUV
  split_ifs with h1 h2 h3
  · exfalso
    have hgt := h2.2.2.1
    have hle := h2.2.2.2
    have hlen : r.temp_uvs.length = 0 := by rw [h]; rfl
    omega
  · exact absurd h h3
  · rfl
  · rfl

theorem out_uvs_length (r : RawData) (h : r.temp_uvs ≠ []) :
    (flatten r).out_uvs.length = (flatten r).out_vertices.length := by
  rw [flatten_eq]
  apply length_filterMap_congr
  intro i _
  unfold emitUV emitPos
  by_cases h1 : posValid r i
  · by_cases h2 : uvValid r i
    · rw [if_pos h1, if_pos h1, if_pos h2]
      rfl
    · rw [if_pos h1, if_pos h1, if_neg h2, if_pos h]
      rfl
  · rw [if_neg h1, if_neg h1]
    rfl

theorem C6_uv_emission (r : RawData) :
    (flatten r).out_uvs = (List.range r.vertexIndices.length).filterMap (emitUV r) ∧
    (r.temp_uvs = [] → (flatten r).out_uvs = []) ∧
    (r.temp_uvs ≠ [] →
      (flatten r).out_uvs.length = (flatten r).out_vertices.length) :=
  ⟨by rw [flatten_eq], out_uvs_nil r, out_uvs_length r⟩

theorem C6_uv_emission_witness :
    ((parsedRaw uvDataLines).temp_uvs ≠ [] →
      (flatten (parsedRaw uvDataLines)).out_uvs.length
        = (flatten (parsedRaw uvDataLines)).out_vertices.length) ∧
    (parsedRaw uvDataLines).temp_uvs ≠ [] ∧
    (flatten (parsedRaw uvDataLines)).out_uvs.length
      = (flatten (parsedRaw uvDataLines)).out_vertices.length :=
  ⟨(C6_uv_emission (parsedRaw uvDataLines)).2.2,
   by decide,
   (C6_uv_emission (parsedRaw uvDataLines)).2.2 (by decide)⟩

/-!  ## C7: which parse failures are fatal -/

theorem processCorners_err :
    ∀ (cs : List CornerTok) (r : RawData),
      isOkE (processCorners r cs) = false ↔
        ∃ c ∈ cs, isOkE (parseCorner c) = false := by
  intro cs
  induction cs with
  | nil => intro r; simp [processCorners, isOkE]
  | cons c t ih =>
    intro r
    cases h : parseCorner c with
    | error e =>
      simp only [processCorners, h, List.mem_cons]
      constructor
      · intro _
        exact ⟨c, Or.inl rfl, by rw [h]; rfl⟩
      · intro _
        rfl
    | ok v =>
      obtain ⟨v1, u1, n1⟩ := v
      simp only [processCorners, h, List.mem_cons, ih]
      constructor
      · intro ⟨c', hc', hbad⟩
        exact ⟨c', Or.inr hc', hbad⟩
      · rintro ⟨c', hc' | hc', hbad⟩
        · rw [hc', h] at hbad
          exact absurd hbad (by simp [isOkE])
        · exact ⟨c', hc', hbad⟩

theorem processLine_err (r : RawData) (l : Line) :
    isOkE (processLine r l) = false ↔
      ∃ toks, l = Line.f toks ∧
        ∃ c ∈ faceVertices toks, isOkE (parseCorner c) = false := by
  cases l with
  | f toks => simp [processLine, processCorners_err]
  | v toks => simp [processLine, isOkE]
  | vt toks => simp [processLine, isOkE]
  | vn toks => simp [processLine, isOkE]
  | other => simp [processLine, isOkE]

theorem parseFrom_err :
    ∀ (ls : List Line) (r : RawData),
      isOkE (parseFrom r ls) = false ↔
        ∃ l ∈ ls, ∃ toks, l = Line.f toks ∧
          ∃ c ∈ faceVertices toks, isOkE (parseCorner c) = false := by
  intro ls
  induction ls with
  | nil => intro r; simp [parseFrom, isOkE]
  | cons l t ih =>
    intro r
    cases h : processLine r l with
    | error e =>
      have hbad := (processLine_err r l).mp (by rw [h]; rfl)
      simp only [parseFrom, h, List.mem_cons]
      constructor
      · intro _
        exact ⟨l, Or.inl rfl, hbad⟩
      · intro _
        rfl
    | ok r' =>
      have hgood : ¬ ∃ toks, l = Line.f toks ∧
          ∃ c ∈ faceVertices toks, isOkE (parseCorner c) = false := by
        intro hc
        have := (processLine_err r l).mpr hc
        rw [h] at this
        exact absurd this (by simp [isOkE])
      simp only [parseFrom, h, List.mem_cons, ih r']
      constructor
      · intro ⟨l', hl', hrest⟩
        exact ⟨l', Or.inr hl', hrest⟩
      · rintro ⟨l', hl' | hl', hrest⟩
        · rw [hl'] at hrest
          exact absurd hrest hgood
        · exact ⟨l', hl', hrest⟩

/-- C7 counterexample: a `v` record all of whose numeric fields fail to
parse does *not* abort the load — the record is pushed (with the failed
extractions stored as zero) and `loadOBJ` still succeeds; only a face
corner whose index token `std::stoi` rejects is fatal. -/
theorem C7_malformed_vertex_record_counterexample :
    isOkE (parseLines badVLines) = true ∧
    (parsedRaw badVLines).temp_vertices.length = 1 ∧
    isOkE (parseLines badCornerLines) = false := by
  decide

/-- C7 amended: the load aborts exactly when some face record contains
a corner token whose index parsing throws (`std::stoi` on an empty,
non-numeric or out-of-`int`-range field); numeric parse failures in
`v`/`vt`/`vn` records are never fatal. -/
theorem C7_fatal_only_for_corner_tokens (ls : List Line) :
    isOkE (parseLines ls) = false ↔
      ∃ l ∈ ls, ∃ toks, l = Line.f toks ∧
        ∃ c ∈ faceVertices toks, isOkE (parseCorner c) = false :=
  parseFrom_err ls emptyRaw

theorem C7_fatal_only_for_corner_tokens_witness :
    isOkE (parseLines badCornerLines) = false :=
  (C7_fatal_only_for_corner_tokens badCornerLines).mpr
    ⟨Line.f [[Field.fbad], [Field.fnum 1], [Field.fnum 1]], by decide,
     [[Field.fbad], [Field.fnum 1], [Field.fnum 1]], rfl, by decide⟩

/-!  ## C10: empty meshes load fine and hit an unguarded division -/

theorem flatten_all_empty (r : RawData) (hv : (flatten r).out_vertices = []) :
    flatten r = ⟨[], [], []⟩ := by
  have hfe := flatten_eq r
  rw [hfe] at hv
  have hv' : List.filterMap (emitPos r) (List.range r.vertexIndices.length) = [] := hv
  have hnone : ∀ i ∈ List.range r.vertexIndices.length, ¬ posValid r i := by
    intro i hi hvalid
    have := List.filterMap_eq_nil_iff.mp hv' i hi
    unfold emitPos at this
    rw [if_pos hvalid] at this
    exact Option.some_ne_none _ this
  rw [hfe, hv']
  refine congrArg₂ (FlatOut.mk []) ?_ ?_
  · apply List.filterMap_eq_nil_iff.mpr
    intro i hi
    unfold emitUV
    rw [if_neg (hnone i hi)]
  · apply List.filterMap_eq_nil_iff.mpr
    intro i hi
    unfold emitNormal
    rw [if_neg (hnone i hi)]

/-- C10: a file that parses but yields no flat vertices (no faces, or
every corner skipped) still loads successfully with all three output
arrays empty, and the fit-to-view centering then divides by
`vertices.size()`, which is zero — there is no emptiness guard. -/
theorem C10_empty_mesh_unguarded_divide (ls : List Line) (r : RawData)
    (hp : parseLines ls = .ok r) (hv : (flatten r).out_vertices = []) :
    loadOBJ ls = .ok ⟨[], [], []⟩ ∧ centerDivisor (flatten r) = 0 := by
  constructor
  · unfold loadOBJ
    rw [hp]
    exact congrArg Except.ok (flatten_all_empty r hv)
  · unfold centerDivisor
    rw [hv]
    rfl

theorem C10_empty_mesh_unguarded_divide_witness :
    parseLines [] = .ok emptyRaw ∧
    (flatten emptyRaw).out_vertices = [] ∧
    loadOBJ [] = .ok ⟨[], [], []⟩ ∧ centerDivisor (flatten emptyRaw) = 0 :=
  ⟨rfl, rfl,
   (C10_empty_mesh_unguarded_divide [] emptyRaw rfl rfl).1,
   (C10_empty_mesh_unguarded_divide [] emptyRaw rfl rfl).2⟩

/-!  ## C8: scroll events and the zoom clamp -/

theorem scroll_callback_eq (z y : ℚ) :
    scroll_callback z y =
      if (if z - y * (1 / 5) < 1 / 2 then (1 : ℚ) / 2 else z - y * (1 / 5)) > 10 then 10
      else if z - y * (1 / 5) < 1 / 2 then 1 / 2 else z - y * (1 / 5) := rfl

theorem scroll_ge_half (z y : ℚ) : 1 / 2 ≤ scroll_callback z y := by
  rw [scroll_callback_eq]
  split_ifs <;> linarith

theorem scrollFold_ge_half :
    ∀ (ys : List ℚ) (z : ℚ), 1 / 2 ≤ z → 1 / 2 ≤ scrollFold z ys := by
  intro ys
  induction ys with
  | nil => intro z hz; exact hz
  | cons y t ih =>
    intro z _
    exact ih (scroll_callback z y) (scroll_ge_half z y)

theorem scroll_step_max (z y : ℚ) (hz : z ≤ 10) (hy : 0 ≤ y) :
    scroll_callback z y = max (1 / 2) (z - y * (1 / 5)) := by
  rw [scroll_callback_eq]
  have hle : z - y * (1 / 5) ≤ 10 := by linarith
  split_ifs with h1 h2 h2
  · linarith
  · rw [max_eq_left (by linarith)]
  · linarith
  · rw [max_eq_right (by linarith)]

theorem scrollFold_formula :
    ∀ (ys : List ℚ) (z : ℚ), 1 / 2 ≤ z → z ≤ 10 → (∀ y ∈ ys, 0 ≤ y) →
      scrollFold z ys = max (1 / 2) (z - ys.sum * (1 / 5)) := by
  intro ys
  induction ys with
  | nil =>
    intro z h1 _ _
    simp only [scrollFold, List.foldl_nil, List.sum_nil, zero_mul, sub_zero]
    exact (max_eq_right h1).symm
  | cons y t ih =>
    intro z h1 h2 hnn
    have hy : 0 ≤ y := hnn y (by simp)
    have hts : 0 ≤ t.sum := List.sum_nonneg fun a ha => hnn a (by simp [ha])
    have hstep := scroll_step_max z y h2 hy
    have hz1' : 1 / 2 ≤ scroll_callback z y := scroll_ge_half z y
    have hz2' : scroll_callback z y ≤ 10 := by
      rw [hstep]
      apply max_le (by norm_num) (by linarith)
    have := ih (scroll_callback z y) hz1' hz2' fun a ha => hnn a (by simp [ha])
    show scrollFold (scroll_callback z y) t = _
    rw [this, hstep, List.sum_cons]
    rcases le_or_lt (z - y * (1 / 5)) (1 / 2) with hc | hc
    · rw [max_eq_left hc, max_eq_left (by linarith), max_eq_left (by linarith)]
    · rw [max_eq_right (le_of_lt hc)]
      congr 1
      ring

/-- C8 counterexample: from the initial zoom distance 3, a scroll
sequence whose `yoffset` values sum to −50 drives the zoom to the
*ceiling* 10, not to the floor 0.5: `cameraPos.z -= yoffset * 0.2f`
means negative offsets move the camera away. -/
theorem C8_zoom_counterexample :
    List.sum [(-50 : ℚ)] = -50 ∧ scrollFold 3 [(-50 : ℚ)] = 10 ∧ (10 : ℚ) ≠ 1 / 2 := by
  refine ⟨by simp, ?_, by norm_num⟩
  simp only [scrollFold, List.foldl_cons, List.foldl_nil, scroll_callback_eq]
  norm_num

/-- C8 amended: starting from any zoom distance in the clamp range
`[0.5, 10]`, a sequence of zoom-in scroll events (each `yoffset ≥ 0`)
whose offsets sum to +50 leaves the zoom distance exactly at its floor
0.5, and no prefix of the sequence ever takes it below 0.5. -/
theorem C8_zoom_floor (z : ℚ) (ys : List ℚ) (h1 : 1 / 2 ≤ z) (h2 : z ≤ 10)
    (hnn : ∀ y ∈ ys, 0 ≤ y) (hsum : ys.sum = 50) :
    scrollFold z ys = 1 / 2 ∧ ∀ k, 1 / 2 ≤ scrollFold z (ys.take k) := by
  constructor
  · rw [scrollFold_formula ys z h1 h2 hnn, hsum]
    rw [max_eq_left (by linarith)]
  · intro k
    exact scrollFold_ge_half (ys.take k) z h1

theorem C8_zoom_floor_witness :
    (1 / 2 : ℚ) ≤ 3 ∧ (3 : ℚ) ≤ 10 ∧ (∀ y ∈ [(50 : ℚ)], 0 ≤ y) ∧
      List.sum [(50 : ℚ)] = 50 ∧
      (scrollFold 3 [(50 : ℚ)] = 1 / 2 ∧
        ∀ k, 1 / 2 ≤ scrollFold 3 (List.take k [(50 : ℚ)])) :=
  ⟨by norm_num, by norm_num, by norm_num, by simp,
   C8_zoom_floor 3 [(50 : ℚ)] (by norm_num) (by norm_num) (by norm_num) (by simp)⟩

/-!  ## C2: the face-normal accumulation phase -/

theorem addQ_vzero (v : Vec3) : addQ v vzero = v := by
  obtain ⟨a, b, c⟩ := v
  simp [addQ, vzero]

theorem vzero_addQ (v : Vec3) : addQ vzero v = v := by
  obtain ⟨a, b, c⟩ := v
  simp [addQ, vzero]

theorem accumGroup_length (verts ns : List Vec3) (i : Nat) :
    (accumGroup verts ns i).length = ns.length := by
  simp [accumGroup, List.length_set]

theorem accumGroup_getD_out (verts ns : List Vec3) (i j : Nat)
    (hj : j ≠ i ∧ j ≠ i + 1 ∧ j ≠ i + 2) :
    (accumGroup verts ns i).getD j vzero = ns.getD j vzero := by
  simp only [accumGroup]
  rw [getD_set_ne _ _ _ _ _ (by omega), getD_set_ne _ _ _ _ _ (by omega),
    getD_set_ne _ _ _ _ _ (by omega)]

theorem accumGroup_getD_in (verts ns : List Vec3) (i j : Nat)
    (hlt : j < ns.length) (hj : j = i ∨ j = i + 1 ∨ j = i + 2) :
    (accumGroup verts ns i).getD j vzero
      = addQ (ns.getD j vzero) (faceNormalAt verts i) := by
  have hfn : faceNormalAt verts i
      = crossQ (subQ (verts.getD (i + 1) vzero) (verts.getD i vzero))
          (subQ (verts.getD (i + 2) vzero) (verts.getD i vzero)) := rfl
  simp only [accumGroup]
  rcases hj with hj | hj | hj <;> subst hj
  · rw [getD_set_ne _ _ _ _ _ (by omega), getD_set_ne _ _ _ _ _ (by omega),
      getD_set_self _ _ _ _ hlt, hfn]
  · rw [getD_set_ne _ _ _ _ _ (by omega),
      getD_set_self _ _ _ _ (by rw [List.length_set]; omega),
      getD_set_ne _ _ _ _ _ (by omega), hfn]
  · rw [getD_set_self _ _ _ _ (by rw [List.length_set, List.length_set]; omega),
      getD_set_ne _ _ _ _ _ (by omega), getD_set_ne _ _ _ _ _ (by omega), hfn]

theorem accumFrom_length (verts : List Vec3) :
    ∀ (i : Nat) (ns : List Vec3), (accumFrom verts ns i).length = ns.length := by
  have H : ∀ (d i : Nat), verts.length - i = d →
      ∀ ns : List Vec3, (accumFrom verts ns i).length = ns.length := by
    intro d
    induction d using Nat.strong_induction_on with
    | _ d ih =>
      intro i hd ns
      rw [accumFrom]
      by_cases h : i < verts.length
      · rw [dif_pos h, ih (verts.length - (i + 3)) (by omega) (i + 3) rfl]
        by_cases hc : i + 2 < verts.length
        · rw [if_pos hc, accumGroup_length]
        · rw [if_neg hc]
      · rw [dif_neg h]
  exact fun i ns => H (verts.length - i) i rfl ns

/-- The value left in slot `j` by the accumulation loop started at a
multiple-of-3 index `i`: slots below `i` are untouched, and a slot at
or above `i` receives exactly the face normal of its own group of 3
when that group is complete, and nothing otherwise. -/
theorem accumFrom_getD (verts : List Vec3) :
    ∀ (i : Nat) (ns : List Vec3) (j : Nat), i % 3 = 0 → ns.length = verts.length →
      (accumFrom verts ns i).getD j vzero =
        if i ≤ j then
          addQ (ns.getD j vzero)
            (if 3 * (j / 3) + 2 < verts.length ∧ i ≤ 3 * (j / 3)
             then faceNormalAt verts (3 * (j / 3)) else vzero)
        else ns.getD j vzero := by
  have H : ∀ (d i : Nat), verts.length - i = d →
      ∀ (ns : List Vec3) (j : Nat), i % 3 = 0 → ns.length = verts.length →
      (accumFrom verts ns i).getD j vzero =
        if i ≤ j then
          addQ (ns.getD j vzero)
            (if 3 * (j / 3) + 2 < verts.length ∧ i ≤ 3 * (j / 3)
             then faceNormalAt verts (3 * (j / 3)) else vzero)
        else ns.getD j vzero := by
    intro d
    induction d using Nat.strong_induction_on with
    | _ d ih =>
      intro i hd ns j hi hlen
      rw [accumFrom]
      by_cases h : i < verts.length
      · rw [dif_pos h]
        set ns' := if i + 2 < verts.length then accumGroup verts ns i else ns with hns'
        have hlen' : ns'.length = verts.length := by
          rw [hns']
          by_cases hc : i + 2 < verts.length
          · rw [if_pos hc, accumGroup_length, hlen]
          · rw [if_neg hc, hlen]
        rw [ih (verts.length - (i + 3)) (by omega) (i + 3) rfl ns' j (by omega) hlen']
        by_cases hj : i ≤ j
        · by_cases hj3 : i + 3 ≤ j
          · have hne : ns'.getD j vzero = ns.getD j vzero := by
              rw [hns']
              by_cases hc : i + 2 < verts.length
              · rw [if_pos hc,
                  accumGroup_getD_out _ _ _ _ ⟨by omega, by omega, by omega⟩]
              · rw [if_neg hc]
            rw [if_pos hj3, if_pos hj, hne]
            by_cases hg : 3 * (j / 3) + 2 < verts.length ∧ i + 3 ≤ 3 * (j / 3)
            · rw [if_pos hg, if_pos ⟨hg.1, by omega⟩]
            · rw [if_neg hg]
              by_cases hg2 : 3 * (j / 3) + 2 < verts.length ∧ i ≤ 3 * (j / 3)
              · exfalso
                omega
              · rw [if_neg hg2]
          · have hgrp : 3 * (j / 3) = i := by omega
            rw [if_neg hj3, if_pos hj]
            by_cases hc : i + 2 < verts.length
            · have hv : ns'.getD j vzero
                  = addQ (ns.getD j vzero) (faceNormalAt verts i) := by
                rw [hns', if_pos hc]
                exact accumGroup_getD_in verts ns i j (by omega) (by omega)
              rw [hv, if_pos ⟨by omega, by omega⟩, hgrp]
            · have hne : ns'.getD j vzero = ns.getD j vzero := by
                rw [hns', if_neg hc]
              rw [hne, if_neg (by omega), addQ_vzero]
        · have hne : ns'.getD j vzero = ns.getD j vzero := by
            rw [hns']
            by_cases hc : i + 2 < verts.length
            · rw [if_pos hc,
                accumGroup_getD_out _ _ _ _ ⟨by omega, by omega, by omega⟩]
            · rw [if_neg hc]
          rw [if_neg (by omega), if_neg hj, hne]
      · rw [dif_neg h]
        by_cases hj : i ≤ j
        · rw [if_pos hj, if_neg (by omega), addQ_vzero]
        · rw [if_neg hj]
  exact fun i ns j => H (verts.length - i) i rfl ns j

/-- C2: starting from the zero accumulators `main` sets up, the
accumulation phase leaves, in every slot `j`, exactly the unnormalized
cross product `cross(v1 - v0, v2 - v0)` of `j`'s own consecutive
non-overlapping group of 3 when that group is complete, and the zero
vector when `j` lies in a trailing partial group; the array length is
preserved. -/
theorem C2_group_accumulation (verts : List Vec3) (j : Nat) :
    (accumFrom verts (List.replicate verts.length vzero) 0).length = verts.length ∧
    (accumFrom verts (List.replicate verts.length vzero) 0).getD j vzero =
      (if 3 * (j / 3) + 2 < verts.length
       then faceNormalAt verts (3 * (j / 3)) else vzero) := by
  constructor
  · rw [accumFrom_length]
    exact List.length_replicate _ _
  · rw [accumFrom_getD verts 0 _ j (by omega) (List.length_replicate _ _)]
    have hrep : (List.replicate verts.length vzero).getD j vzero = vzero := by
      by_cases hj : j < verts.length
      · exact getD_replicate _ _ _ _ hj
      · apply List.getD_eq_default
        rw [List.length_replicate]
        omega
    rw [if_pos (by omega), hrep, vzero_addQ]
    by_cases hg : 3 * (j / 3) + 2 < verts.length
    · rw [if_pos ⟨hg, by omega⟩, if_pos hg]
    · rw [if_neg (by simp [hg]), if_neg hg]

/-!  ## C3: lengths after flattening plus synthesis -/

theorem foldl_set_length {α : Type} (a : α) :
    ∀ (g : List Nat) (ns : List α),
      (g.foldl (fun s t => s.set t a) ns).length = ns.length := by
  intro g
  induction g with
  | nil => intro ns; rfl
  | cons t g ih => intro ns; rw [List.foldl_cons, ih, List.length_set]

theorem assignGroup_length (ns : List VecR) (g : List Nat) :
    (assignGroup ns g).length = ns.length := by
  unfold assignGroup
  by_cases h : 1 < g.length
  · rw [if_pos h]
    show (g.foldl (fun ns2 idx => ns2.set idx
      (normalizeR (sumVecR (g.map (fun idx => ns.getD idx rzero))))) ns).length
        = ns.length
    exact foldl_set_length _ g ns
  · rw [if_neg h]
    match g with
    | [] => rfl
    | [idx] => simp [List.length_set]
    | a :: b :: t => rfl

theorem smoothPass_length :
    ∀ (m : List (Vec3 × List Nat)) (ns : List VecR),
      (smoothPass m ns).length = ns.length := by
  intro m
  induction m with
  | nil => intro ns; rfl
  | cons e rest ih =>
    intro ns
    show (smoothPass rest (assignGroup ns e.2)).length = ns.length
    rw [ih, assignGroup_length]

theorem calculateSmoothNormals_length (vertices normals : List Vec3) :
    (calculateSmoothNormals vertices normals).length = normals.length := by
  unfold calculateSmoothNormals
  rw [smoothPass_length, List.length_map, accumFrom_length]

theorem synthStage_length (vertices normals : List Vec3) :
    (synthStage vertices normals).length = vertices.length := by
  unfold synthStage
  split_ifs with h
  · rw [calculateSmoothNormals_length, List.length_replicate]
  · push_neg at h
    rw [List.length_map]
    exact h.2

/-- C3: for every successfully loaded mesh, after flattening and the
conditional normal synthesis of `main` the normal array has exactly
the length of the flat position array, and the flat UV array is empty
or of that same length. -/
theorem C3_flat_array_lengths (ls : List Line) (r : RawData)
    (_hp : parseLines ls = .ok r) :
    (synthStage (flatten r).out_vertices (flatten r).out_normals).length
      = (flatten r).out_vertices.length ∧
    ((flatten r).out_uvs.length = 0 ∨
      (flatten r).out_uvs.length = (flatten r).out_vertices.length) := by
  refine ⟨synthStage_length _ _, ?_⟩
  by_cases h : r.temp_uvs = []
  · left
    rw [out_uvs_nil r h]
    rfl
  · right
    exact out_uvs_length r h

theorem C3_flat_array_lengths_witness :
    parseLines triLines = .ok (parsedRaw triLines) ∧
    ((synthStage (flatten (parsedRaw triLines)).out_vertices
        (flatten (parsedRaw triLines)).out_normals).length
      = (flatten (parsedRaw triLines)).out_vertices.length ∧
    ((flatten (parsedRaw triLines)).out_uvs.length = 0 ∨
      (flatten (parsedRaw triLines)).out_uvs.length
        = (flatten (parsedRaw triLines)).out_vertices.length)) :=
  ⟨rfl, C3_flat_array_lengths triLines (parsedRaw triLines) rfl⟩

/-!  ## C9, part 1: the position map (`std::map<VertexKey, ...>`) -/

theorem keyLt_iff (a b : Vec3) :
    keyLt a b ↔ a.x < b.x ∨ (a.x = b.x ∧ (a.y < b.y ∨ (a.y = b.y ∧ a.z < b.z))) := by
  unfold keyLt
  split_ifs with h1 h2
  · simp [h1]
  · push_neg at h1
    simp [h1, h2, lt_irrefl]
  · push_neg at h1 h2
    simp [h1, h2, lt_irrefl]

theorem keyLt_irrefl (a : Vec3) : ¬ keyLt a a := by
  simp [keyLt_iff, lt_irrefl]

theorem keyLt_trans {a b c : Vec3} (h1 : keyLt a b) (h2 : keyLt b c) : keyLt a c := by
  rw [keyLt_iff] at h1 h2 ⊢
  rcases h1 with hx | ⟨hx, h1⟩ <;> rcases h2 with hx' | ⟨hx', h2⟩
  · exact Or.inl (lt_trans hx hx')
  · exact Or.inl (by rw [← hx']; exact hx)
  · exact Or.inl (by rw [hx]; exact hx')
  · refine Or.inr ⟨hx.trans hx', ?_⟩
    rcases h1 with hy | ⟨hy, hz⟩ <;> rcases h2 with hy' | ⟨hy', hz'⟩
    · exact Or.inl (lt_trans hy hy')
    · exact Or.inl (by rw [← hy']; exact hy)
    · exact Or.inl (by rw [hy]; exact hy')
    · exact Or.inr ⟨hy.trans hy', lt_trans hz hz'⟩

theorem keyLt_conn {a b : Vec3} (h1 : ¬ keyLt a b) (h2 : ¬ keyLt b a) : a = b := by
  obtain ⟨ax, ay, az⟩ := a
  obtain ⟨bx, byy, bz⟩ := b
  rw [keyLt_iff] at h1 h2
  simp only [Vec3.mk.injEq]
  rcases lt_trichotomy ax bx with hx | hx | hx
  · exact absurd (Or.inl hx) h1
  · rcases lt_trichotomy ay byy with hy | hy | hy
    · exact absurd (Or.inr ⟨hx, Or.inl hy⟩) h1
    · rcases lt_trichotomy az bz with hz | hz | hz
      · exact absurd (Or.inr ⟨hx, Or.inr ⟨hy, hz⟩⟩) h1
      · exact ⟨hx, hy, hz⟩
      · exact absurd (Or.inr ⟨hx.symm, Or.inr ⟨hy.symm, hz⟩⟩) h2
    · exact absurd (Or.inr ⟨hx.symm, Or.inl hy⟩) h2
  · exact absurd (Or.inl hx) h2

theorem insertIdx_key_mem :
    ∀ (m : List (Vec3 × List Nat)) (v : Vec3) (i : Nat) (e : Vec3 × List Nat),
      e ∈ insertIdx m v i → e.1 = v ∨ e ∈ m := by
  intro m
  induction m with
  | nil =>
    intro v i e he
    simp only [insertIdx, List.mem_singleton] at he
    exact Or.inl (by rw [he])
  | cons hd rest ih =>
    intro v i e he
    obtain ⟨k, g⟩ := hd
    unfold insertIdx at he
    split_ifs at he with h1 h2
    · rcases List.mem_cons.mp he with he | he
      · exact Or.inl (by rw [he])
      · exact Or.inr he
    · rcases List.mem_cons.mp he with he | he
      · exact Or.inr (by rw [he]; exact List.mem_cons_self _ _)
      · rcases ih v i e he with h | h
        · exact Or.inl h
        · exact Or.inr (List.mem_cons_of_mem _ h)
    · rcases List.mem_cons.mp he with he | he
      · exact Or.inl (by rw [he]; exact keyLt_conn h2 h1)
      · exact Or.inr (List.mem_cons_of_mem _ he)

theorem insertIdx_sorted :
    ∀ (m : List (Vec3 × List Nat)) (v : Vec3) (i : Nat),
      SortedM m → SortedM (insertIdx m v i) := by
  intro m
  induction m with
  | nil =>
    intro v i _
    simp [insertIdx, SortedM]
  | cons hd rest ih =>
    intro v i hs
    obtain ⟨k, g⟩ := hd
    have hpc := List.pairwise_cons.mp hs
    unfold insertIdx
    split_ifs with h1 h2
    · apply List.Pairwise.cons
      · intro e he
        rcases List.mem_cons.mp he with he | he
        · rw [he]
          exact h1
        · exact keyLt_trans h1 (hpc.1 e he)
      · exact hs
    · apply List.Pairwise.cons
      · intro e he
        rcases insertIdx_key_mem rest v i e he with he1 | he1
        · rw [he1]
          exact h2
        · exact hpc.1 e he1
      · exact ih v i hpc.2
    · exact List.Pairwise.cons hpc.1 hpc.2

theorem lookupG_nil_of_forall :
    ∀ (m : List (Vec3 × List Nat)) (v : Vec3),
      (∀ e ∈ m, keyLt v e.1) → lookupG m v = [] := by
  intro m
  induction m with
  | nil => intro v _; rfl
  | cons hd rest ih =>
    intro v hall
    obtain ⟨k, g⟩ := hd
    unfold lookupG
    rw [if_neg, ih v fun e he => hall e (List.mem_cons_of_mem _ he)]
    intro hv
    have := hall (k, g) (List.mem_cons_self _ _)
    rw [hv] at this
    exact keyLt_irrefl k this

theorem lookupG_insertIdx :
    ∀ (m : List (Vec3 × List Nat)) (v : Vec3) (i : Nat), SortedM m →
      ∀ k, lookupG (insertIdx m v i) k
        = if k = v then lookupG m v ++ [i] else lookupG m k := by
  intro m
  induction m with
  | nil =>
    intro v i _ k
    by_cases hk : k = v <;> simp [insertIdx, lookupG, hk]
  | cons hd rest ih =>
    intro v i hs k
    obtain ⟨k0, g0⟩ := hd
    have hpc := List.pairwise_cons.mp hs
    by_cases hlt1 : keyLt v k0
    · -- new entry inserted in front: all existing keys are above v
      have hL : insertIdx ((k0, g0) :: rest) v i = (v, [i]) :: (k0, g0) :: rest := by
        simp only [insertIdx]
        rw [if_pos hlt1]
      have hv0 : lookupG ((k0, g0) :: rest) v = [] := by
        apply lookupG_nil_of_forall
        intro e he
        rcases List.mem_cons.mp he with he | he
        · rw [he]
          exact hlt1
        · exact keyLt_trans hlt1 (hpc.1 e he)
      rw [hL]
      by_cases hk : k = v
      · rw [if_pos hk, hv0]
        show (if k = v then [i] else lookupG ((k0, g0) :: rest) k) = [] ++ [i]
        rw [if_pos hk]
        rfl
      · rw [if_neg hk]
        show (if k = v then [i] else lookupG ((k0, g0) :: rest) k)
          = lookupG ((k0, g0) :: rest) k
        rw [if_neg hk]
    · by_cases hlt2 : keyLt k0 v
      · -- recurse past the head
        have hL : insertIdx ((k0, g0) :: rest) v i
            = (k0, g0) :: insertIdx rest v i := by
          simp only [insertIdx]
          rw [if_neg hlt1, if_pos hlt2]
        have hvk : v ≠ k0 := fun h => keyLt_irrefl k0 (by rw [h] at hlt2; exact hlt2)
        rw [hL]
        by_cases hk0 : k = k0
        · have hkv : k ≠ v := fun h => hvk (by rw [← h, hk0])
          rw [if_neg hkv]
          show (if k = k0 then g0 else lookupG (insertIdx rest v i) k)
            = lookupG ((k0, g0) :: rest) k
          rw [if_pos hk0]
          show g0 = if k = k0 then g0 else lookupG rest k
          rw [if_pos hk0]
        · show (if k = k0 then g0 else lookupG (insertIdx rest v i) k) = _
          rw [if_neg hk0, ih v i hpc.2 k]
          by_cases hk : k = v
          · rw [if_pos hk, if_pos hk]
            show lookupG rest v ++ [i] = (if v = k0 then g0 else lookupG rest v) ++ [i]
            rw [if_neg hvk]
          · rw [if_neg hk, if_neg hk]
            show lookupG rest k = if k = k0 then g0 else lookupG rest k
            rw [if_neg hk0]
      · -- equivalent keys: append to the existing group
        have hL : insertIdx ((k0, g0) :: rest) v i = (k0, g0 ++ [i]) :: rest := by
          simp only [insertIdx]
          rw [if_neg hlt1, if_neg hlt2]
        have hk0v : k0 = v := keyLt_conn hlt2 hlt1
        rw [hL]
        by_cases hk : k = k0
        · rw [if_pos (hk.trans hk0v)]
          show (if k = k0 then g0 ++ [i] else lookupG rest k)
            = (if v = k0 then g0 else lookupG rest v) ++ [i]
          rw [if_pos hk, if_pos hk0v.symm]
        · rw [if_neg fun h => hk (h.trans hk0v.symm)]
          show (if k = k0 then g0 ++ [i] else lookupG rest k)
            = if k = k0 then g0 else lookupG rest k
          rw [if_neg hk, if_neg hk]

theorem buildMapFrom_spec (verts : List Vec3) :
    ∀ (d i : Nat), verts.length - i = d → i ≤ verts.length →
      ∀ m, SortedM m → (∀ k, lookupG m k = grpUpTo verts i k) →
      SortedM (buildMapFrom verts i m) ∧
        ∀ k, lookupG (buildMapFrom verts i m) k = grpUpTo verts verts.length k := by
  intro d
  induction d using Nat.strong_induction_on with
  | _ d ih =>
    intro i hd hile m hs hlk
    rw [buildMapFrom]
    by_cases h : i < verts.length
    · rw [dif_pos h]
      apply ih (verts.length - (i + 1)) (by omega) (i + 1) rfl (by omega)
      · exact insertIdx_sorted m _ i hs
      · intro k
        rw [lookupG_insertIdx m _ i hs k]
        have hr : grpUpTo verts (i + 1) k
            = grpUpTo verts i k ++ (if verts.getD i vzero = k then [i] else []) := by
          unfold grpUpTo
          rw [List.range_succ, List.filter_append]
          by_cases hgi : verts.getD i vzero = k <;>
            simp [List.filter_singleton, hgi]
        rw [hr]
        by_cases hk : k = verts.getD i vzero
        · rw [if_pos hk, if_pos (by rw [hk]), ← hk, hlk k]
        · rw [if_neg hk, if_neg fun h' => hk h'.symm, hlk k, List.append_nil]
    · rw [dif_neg h]
      have hieq : i = verts.length := by omega
      exact ⟨hs, fun k => by rw [hlk k, hieq]⟩

theorem buildMap_spec (verts : List Vec3) :
    SortedM (buildMap verts) ∧
      ∀ k, lookupG (buildMap verts) k = grp verts k := by
  have h := buildMapFrom_spec verts verts.length 0 rfl (by omega) []
    List.Pairwise.nil (fun k => rfl)
  exact ⟨h.1, h.2⟩

theorem mem_lookupG :
    ∀ (m : List (Vec3 × List Nat)), SortedM m →
      ∀ k g, (k, g) ∈ m → lookupG m k = g := by
  intro m
  induction m with
  | nil => intro _ k g h; simp at h
  | cons hd rest ih =>
    intro hs k g hm
    obtain ⟨k0, g0⟩ := hd
    have hpc := List.pairwise_cons.mp hs
    rcases List.mem_cons.mp hm with he | he
    · rw [Prod.mk.injEq] at he
      obtain ⟨hk, hg⟩ := he
      unfold lookupG
      rw [if_pos hk, hg]
    · have hkne : k ≠ k0 := by
        intro hkk
        have hlt := hpc.1 (k, g) he
        rw [hkk] at hlt
        exact keyLt_irrefl k0 hlt
      unfold lookupG
      rw [if_neg hkne]
      exact ih hpc.2 k g he

theorem lookupG_mem :
    ∀ (m : List (Vec3 × List Nat)) (k : Vec3),
      lookupG m k ≠ [] → (k, lookupG m k) ∈ m := by
  intro m
  induction m with
  | nil => intro k h; exact absurd rfl h
  | cons hd rest ih =>
    intro k h
    obtain ⟨k0, g0⟩ := hd
    unfold lookupG at h ⊢
    by_cases hk : k = k0
    · rw [if_pos hk]
      rw [hk]
      exact List.mem_cons_self _ _
    · rw [if_neg hk] at h ⊢
      exact List.mem_cons_of_mem _ (ih k h)

theorem mem_grp_iff (verts : List Vec3) (k : Vec3) (t : Nat) :
    t ∈ grp verts k ↔ t < verts.length ∧ verts.getD t vzero = k := by
  unfold grp
  simp [List.mem_filter, List.mem_range]

/-!  ## C9, part 2: the averaging pass -/

theorem map_congr_own {α β : Type} :
    ∀ (l : List α) (f g : α → β), (∀ a ∈ l, f a = g a) → l.map f = l.map g := by
  intro l
  induction l with
  | nil => intro f g _; rfl
  | cons a t ih =>
    intro f g h
    rw [List.map_cons, List.map_cons, h a (by simp),
      ih f g fun b hb => h b (by simp [hb])]

theorem findG_eq_none :
    ∀ (m : List (Vec3 × List Nat)) (j : Nat),
      (∀ e ∈ m, j ∉ e.2) → findG m j = none := by
  intro m
  induction m with
  | nil => intro j _; rfl
  | cons e rest ih =>
    intro j h
    obtain ⟨k, g⟩ := e
    unfold findG
    rw [if_neg (h (k, g) (List.mem_cons_self _ _)), ih j
      fun e' he' => h e' (List.mem_cons_of_mem _ he')]

theorem findG_mem :
    ∀ (m : List (Vec3 × List Nat)) (j : Nat) (g' : List Nat),
      findG m j = some g' → ∃ e ∈ m, e.2 = g' ∧ j ∈ g' := by
  intro m
  induction m with
  | nil => intro j g' h; exact absurd h (by simp [findG])
  | cons e rest ih =>
    intro j g' h
    obtain ⟨k, g⟩ := e
    unfold findG at h
    split_ifs at h with hj
    · injection h with h
      exact ⟨(k, g), List.mem_cons_self _ _, h, h ▸ hj⟩
    · obtain ⟨e', he', hg', hj'⟩ := ih j g' h
      exact ⟨e', List.mem_cons_of_mem _ he', hg', hj'⟩

theorem foldl_set_getD_not {α : Type} (a d : α) :
    ∀ (g : List Nat) (ns : List α) (j : Nat), j ∉ g →
      ((g.foldl (fun s t => s.set t a) ns)).getD j d = ns.getD j d := by
  intro g
  induction g with
  | nil => intro ns j _; rfl
  | cons t g' ih =>
    intro ns j hj
    rw [List.foldl_cons, ih _ j fun h => hj (List.mem_cons_of_mem _ h),
      getD_set_ne _ _ _ _ _ fun h => hj (by rw [← h]; exact List.mem_cons_self _ _)]

theorem foldl_set_getD_mem {α : Type} (a d : α) :
    ∀ (g : List Nat) (ns : List α) (j : Nat), j ∈ g → j < ns.length →
      ((g.foldl (fun s t => s.set t a) ns)).getD j d = a := by
  intro g
  induction g with
  | nil => intro ns j hj _; simp at hj
  | cons t g' ih =>
    intro ns j hj hlt
    rw [List.foldl_cons]
    by_cases hj' : j ∈ g'
    · exact ih _ j hj' (by rw [List.length_set]; exact hlt)
    · have hjt : j = t := by
        rcases List.mem_cons.mp hj with h | h
        · exact h
        · exact absurd h hj'
      rw [foldl_set_getD_not a d g' _ j hj', hjt, getD_set_self _ _ _ _ (hjt ▸ hlt)]

theorem rzero_addR (v : VecR) : addR rzero v = v := by
  obtain ⟨a, b, c⟩ := v
  simp [addR, rzero]

theorem assignGroup_getD_not (ns : List VecR) (g : List Nat) (j : Nat) (hj : j ∉ g) :
    (assignGroup ns g).getD j rzero = ns.getD j rzero := by
  unfold assignGroup
  by_cases h : 1 < g.length
  · rw [if_pos h]
    show ((g.foldl (fun ns2 idx => ns2.set idx
      (normalizeR (sumVecR (g.map fun idx => ns.getD idx rzero)))) ns)).getD j rzero
        = ns.getD j rzero
    exact foldl_set_getD_not _ _ g ns j hj
  · rw [if_neg h]
    rcases g with _ | ⟨idx, _ | ⟨b2, t2⟩⟩
    · rfl
    · show (ns.set idx (normalizeR (ns.getD idx rzero))).getD j rzero = ns.getD j rzero
      exact getD_set_ne _ _ _ _ _ fun h' => hj (by rw [h']; simp)
    · rfl

theorem assignGroup_getD_mem (ns : List VecR) (g : List Nat) (j : Nat)
    (hj : j ∈ g) (hlt : j < ns.length) :
    (assignGroup ns g).getD j rzero
      = normalizeR (sumVecR (g.map fun t => ns.getD t rzero)) := by
  unfold assignGroup
  by_cases h : 1 < g.length
  · rw [if_pos h]
    show ((g.foldl (fun ns2 idx => ns2.set idx
      (normalizeR (sumVecR (g.map fun idx => ns.getD idx rzero)))) ns)).getD j rzero = _
    exact foldl_set_getD_mem _ _ g ns j hj hlt
  · rw [if_neg h]
    rcases g with _ | ⟨idx, _ | ⟨b2, t2⟩⟩
    · simp at hj
    · have hji : j = idx := by simpa using hj
      subst hji
      show (ns.set j (normalizeR (ns.getD j rzero))).getD j rzero = _
      rw [getD_set_self _ _ _ _ hlt]
      congr 1
      show ns.getD j rzero = sumVecR [ns.getD j rzero]
      show ns.getD j rzero = addR rzero (ns.getD j rzero)
      rw [rzero_addR]
    · exfalso
      simp at h

theorem smoothPass_getD :
    ∀ (m : List (Vec3 × List Nat)) (ns : List VecR),
      List.Pairwise (fun e e' => ∀ t, t ∈ e.2 → t ∉ e'.2) m →
      (∀ e ∈ m, ∀ t ∈ e.2, t < ns.length) →
      ∀ j, (smoothPass m ns).getD j rzero =
        match findG m j with
        | some g => normalizeR (sumVecR (g.map fun t => ns.getD t rzero))
        | none => ns.getD j rzero := by
  intro m
  induction m with
  | nil => intro ns _ _ j; rfl
  | cons e rest ih =>
    intro ns hd hlt j
    obtain ⟨k, g⟩ := e
    have hdc := List.pairwise_cons.mp hd
    show (smoothPass rest (assignGroup ns g)).getD j rzero = _
    rw [ih (assignGroup ns g) hdc.2
      (fun e' he' t ht => by
        rw [assignGroup_length]
        exact hlt e' (List.mem_cons_of_mem _ he') t ht) j]
    by_cases hj : j ∈ g
    · rw [show findG ((k, g) :: rest) j = some g from by
        unfold findG; rw [if_pos hj]]
      have hnone : findG rest j = none :=
        findG_eq_none rest j fun e' he' ht => hdc.1 e' he' j hj ht
      rw [hnone]
      exact assignGroup_getD_mem ns g j hj (hlt (k, g) (List.mem_cons_self _ _) j hj)
    · rw [show findG ((k, g) :: rest) j = findG rest j from by
        rw [show findG ((k, g) :: rest) j
          = if j ∈ g then some g else findG rest j from rfl, if_neg hj]]
      cases hf : findG rest j with
      | none =>
        simp only
        exact assignGroup_getD_not ns g j hj
      | some g' =>
        simp only
        obtain ⟨e', he', hg', hj'⟩ := findG_mem rest j g' hf
        have hmap : List.map (fun t => (assignGroup ns g).getD t rzero) g'
            = List.map (fun t => ns.getD t rzero) g' := by
          apply map_congr_own
          intro t ht
          apply assignGroup_getD_not
          intro htg
          exact hdc.1 e' he' t htg (by rw [hg']; exact ht)
        rw [hmap]

/-!  ## C9, part 3: assembling the synthesizer characterization -/

theorem buildMap_entry (verts : List Vec3) (e : Vec3 × List Nat)
    (he : e ∈ buildMap verts) : e.2 = grp verts e.1 := by
  obtain ⟨hs, hlk⟩ := buildMap_spec verts
  obtain ⟨k, g⟩ := e
  have hme := mem_lookupG _ hs k g he
  exact hme.symm.trans (hlk k)

theorem buildMap_disjoint (verts : List Vec3) :
    List.Pairwise (fun e e' => ∀ t, t ∈ e.2 → t ∉ e'.2) (buildMap verts) := by
  obtain ⟨hs, _⟩ := buildMap_spec verts
  refine List.Pairwise.imp_of_mem ?_ hs
  intro a b ha hb hab t hta htb
  have hga := buildMap_entry verts a ha
  have hgb := buildMap_entry verts b hb
  rw [hga] at hta
  rw [hgb] at htb
  have h1 := ((mem_grp_iff _ _ _).mp hta).2
  have h2 := ((mem_grp_iff _ _ _).mp htb).2
  have hkk : a.1 = b.1 := h1.symm.trans h2
  rw [hkk] at hab
  exact keyLt_irrefl _ hab

theorem buildMap_bound (verts : List Vec3) :
    ∀ e ∈ buildMap verts, ∀ t ∈ e.2, t < verts.length := by
  intro e he t ht
  rw [buildMap_entry verts e he] at ht
  exact ((mem_grp_iff _ _ _).mp ht).1

theorem findG_eq_some :
    ∀ (m : List (Vec3 × List Nat)) (j : Nat) (g0 : List Nat),
      (∃ e ∈ m, e.2 = g0) → j ∈ g0 → (∀ e ∈ m, j ∈ e.2 → e.2 = g0) →
      findG m j = some g0 := by
  intro m
  induction m with
  | nil =>
    intro j g0 hex _ _
    obtain ⟨e, he, _⟩ := hex
    simp at he
  | cons e rest ih =>
    intro j g0 hex hj hall
    obtain ⟨k, g⟩ := e
    by_cases hjg : j ∈ g
    · have hgg : g = g0 := hall (k, g) (List.mem_cons_self _ _) hjg
      rw [show findG ((k, g) :: rest) j
        = if j ∈ g then some g else findG rest j from rfl, if_pos hjg, hgg]
    · rw [show findG ((k, g) :: rest) j
        = if j ∈ g then some g else findG rest j from rfl, if_neg hjg]
      apply ih j g0 ?_ hj fun e' he' => hall e' (List.mem_cons_of_mem _ he')
      obtain ⟨e0, he0, hg0⟩ := hex
      rcases List.mem_cons.mp he0 with h | h
      · exfalso
        have hgg : g = g0 := by rw [← hg0, h]
        exact hjg (by rw [hgg]; exact hj)
      · exact ⟨e0, h, hg0⟩

theorem findG_buildMap (verts : List Vec3) (j : Nat) (hj : j < verts.length) :
    findG (buildMap verts) j = some (grp verts (verts.getD j vzero)) := by
  obtain ⟨hs, hlk⟩ := buildMap_spec verts
  have hjg : j ∈ grp verts (verts.getD j vzero) :=
    (mem_grp_iff _ _ _).mpr ⟨hj, rfl⟩
  have hne : grp verts (verts.getD j vzero) ≠ [] := by
    intro h
    rw [h] at hjg
    exact absurd hjg (List.not_mem_nil j)
  have hmem : (verts.getD j vzero, grp verts (verts.getD j vzero)) ∈ buildMap verts := by
    have hgot := lookupG_mem (buildMap verts) (verts.getD j vzero)
      (by rw [hlk]; exact hne)
    rw [hlk] at hgot
    exact hgot
  apply findG_eq_some
  · exact ⟨_, hmem, rfl⟩
  · exact hjg
  · intro e he hje
    have hge := buildMap_entry verts e he
    rw [hge] at hje ⊢
    have hkey := ((mem_grp_iff _ _ _).mp hje).2
    rw [← hkey]

theorem toR_addQ (a b : Vec3) : toR (addQ a b) = addR (toR a) (toR b) := by
  simp [toR, addQ, addR]

theorem sumVecR_map_toR :
    ∀ (l : List Vec3) (acc : Vec3),
      (l.map toR).foldl addR (toR acc) = toR (l.foldl addQ acc) := by
  intro l
  induction l with
  | nil => intro acc; rfl
  | cons a t ih =>
    intro acc
    rw [List.map_cons, List.foldl_cons, List.foldl_cons, ← toR_addQ, ih]

theorem sumVecR_toR (l : List Vec3) : sumVecR (l.map toR) = toR (sumVecQ l) := by
  unfold sumVecR sumVecQ
  rw [show (rzero : VecR) = toR vzero from by simp [toR, rzero, vzero]]
  exact sumVecR_map_toR l vzero

theorem toR_ne_rzero (v : Vec3) (h : v ≠ vzero) :
    (toR v).x ≠ 0 ∨ (toR v).y ≠ 0 ∨ (toR v).z ≠ 0 := by
  by_contra hc
  push_neg at hc
  apply h
  obtain ⟨a, b, c⟩ := v
  obtain ⟨h1, h2, h3⟩ := hc
  simp [toR] at h1 h2 h3
  simp [vzero, h1, h2, h3]

theorem dotR_pos (v : VecR) (h : v.x ≠ 0 ∨ v.y ≠ 0 ∨ v.z ≠ 0) : 0 < dotR v v := by
  unfold dotR
  rcases h with h | h | h
  · nlinarith [mul_self_pos.mpr h, mul_self_nonneg v.y, mul_self_nonneg v.z]
  · nlinarith [mul_self_pos.mpr h, mul_self_nonneg v.x, mul_self_nonneg v.z]
  · nlinarith [mul_self_pos.mpr h, mul_self_nonneg v.x, mul_self_nonneg v.y]

theorem normR_normalizeR (v : VecR) (h : 0 < dotR v v) :
    normR (normalizeR v) = 1 := by
  have hs : 0 < Real.sqrt (dotR v v) := Real.sqrt_pos.mpr h
  have hdot : dotR (smulR (1 / Real.sqrt (dotR v v)) v)
      (smulR (1 / Real.sqrt (dotR v v)) v)
      = (1 / Real.sqrt (dotR v v)) ^ 2 * dotR v v := by
    unfold dotR smulR
    ring
  show Real.sqrt (dotR (normalizeR v) (normalizeR v)) = 1
  rw [show normalizeR v = smulR (1 / Real.sqrt (dotR v v)) v from rfl, hdot,
    Real.sqrt_mul (sq_nonneg _), Real.sqrt_sq (by positivity)]
  have hne := hs.ne'
  field_simp

/-- The value `calculateSmoothNormals` assigns to every slot `j`: the
normalized sum of the face-normal accumulators of `j`'s whole
position-equality group. -/
theorem mainNormals_getD (verts : List Vec3) (j : Nat) (hj : j < verts.length) :
    (mainNormals verts).getD j rzero = normalizeR (toR (groupSumQ verts j)) := by
  unfold mainNormals calculateSmoothNormals
  set accQ := accumFrom verts (List.replicate verts.length vzero) 0 with hacc
  have hlacc : accQ.length = verts.length := by
    rw [hacc, accumFrom_length, List.length_replicate]
  have hlen : (accQ.map toR).length = verts.length := by
    rw [List.length_map, hlacc]
  rw [smoothPass_getD (buildMap verts) (accQ.map toR) (buildMap_disjoint verts)
    (fun e he t ht => by rw [hlen]; exact buildMap_bound verts e he t ht) j,
    findG_buildMap verts j hj]
  simp only
  congr 1
  have hmapeq : (grp verts (verts.getD j vzero)).map
        (fun t => (accQ.map toR).getD t rzero)
      = ((grp verts (verts.getD j vzero)).map fun t => accQ.getD t vzero).map toR := by
    rw [List.map_map]
    apply map_congr_own
    intro t ht
    have htl : t < accQ.length := by
      rw [hlacc]
      exact ((mem_grp_iff _ _ _).mp ht).1
    exact getD_map_lt accQ toR t rzero vzero htl
  rw [hmapeq, sumVecR_toR, hacc]
  rfl

/-- C9: after normal synthesis, any two flat vertices whose positions
are identical on all three coordinates receive the same normal vector,
and a vertex whose group's accumulated face-normal sum is non-zero
gets a unit-length normal (Euclidean norm 1 in the exact-real model of
`glm::normalize`). -/
theorem C9_shared_position_normals (verts : List Vec3) (i j : Nat)
    (hi : i < verts.length) (hj : j < verts.length)
    (hpos : verts.getD i vzero = verts.getD j vzero) :
    (mainNormals verts).getD i rzero = (mainNormals verts).getD j rzero ∧
    (groupSumQ verts i ≠ vzero → normR ((mainNormals verts).getD i rzero) = 1) := by
  have hgs : groupSumQ verts i = groupSumQ verts j := by
    unfold groupSumQ
    rw [hpos]
  constructor
  · rw [mainNormals_getD verts i hi, mainNormals_getD verts j hj, hgs]
  · intro hnz
    rw [mainNormals_getD verts i hi]
    exact normR_normalizeR _ (dotR_pos _ (toR_ne_rzero _ hnz))

theorem C9_shared_position_normals_witness :
    ((0 : Nat) < quadVerts.length ∧ (3 : Nat) < quadVerts.length ∧
      quadVerts.getD 0 vzero = quadVerts.getD 3 vzero) ∧
    ((mainNormals quadVerts).getD 0 rzero = (mainNormals quadVerts).getD 3 rzero ∧
      (groupSumQ quadVerts 0 ≠ vzero →
        normR ((mainNormals quadVerts).getD 0 rzero) = 1)) :=
  ⟨⟨by decide, by decide, by decide⟩,
   C9_shared_position_normals quadVerts 0 3 (by decide) (by decide) (by decide)⟩

end OBJ
